import Mathlib

set_option maxHeartbeats 1000000

/- Shallow embedding of the dembot moderator shift-tracking core
   (moderator_tracking.py and schedule.py).  Instants are modelled as
   integer minutes on the US/Eastern civil timeline; a calendar date is
   the floor of an instant divided by the 1440 minutes of a day, which
   matches datetime.date() on the aware datetimes the code builds. -/

/-- A normalized shift record (schedule.ScheduleEntry). -/
structure ScheduleEntry where
  moderator_name : String
  discord_username : String
  shift_start_datetime : Int
  shift_end_datetime : Int
  role : String
deriving DecidableEq, Repr

/-- A raw schedule row whose date and time fields parsed successfully in
    ScheduleSheet.get_schedule_entries: the calendar date as a day number
    and the two times as minutes after midnight. -/
structure Row where
  name : String
  discord : String
  date : Int
  startTime : Int
  endTime : Int
  leadName : String
  overflowName : String
deriving DecidableEq, Repr

/-- datetime.date() on the minute timeline: floor division by one day
    (Int division in Lean is Euclidean, hence floor for the positive
    divisor 1440). -/
def dateOf (t : Int) : Int := t / 1440

/-- eastern.localize(datetime.combine(shift_date, shift_start)). -/
def rowStart (r : Row) : Int := r.date * 1440 + r.startTime

/-- eastern.localize(datetime.combine(shift_date, shift_end)) before the
    midnight-crossing adjustment. -/
def rowEndRaw (r : Row) : Int := r.date * 1440 + r.endTime

/-- Shift end instant: when the raw end is at or before the raw start the
    shift crosses midnight and one day is added. -/
def rowEnd (r : Row) : Int :=
  if rowEndRaw r ≤ rowStart r then rowEndRaw r + 1440 else rowEndRaw r

/-- The list `dates` built per row: the start date, and the end date as
    well when it differs. -/
def rowDates (r : Row) : List Int :=
  if dateOf (rowEnd r) ≠ dateOf (rowStart r) then
    [dateOf (rowStart r), dateOf (rowEnd r)]
  else
    [dateOf (rowStart r)]

/-- The Mod entry built for a row. -/
def modEntry (r : Row) : ScheduleEntry :=
  { moderator_name := r.name
    discord_username := r.discord
    shift_start_datetime := rowStart r
    shift_end_datetime := rowEnd r
    role := "Mod" }

/-- The Lead Mod entry built for a row with a non-empty lead name. -/
def leadEntry (r : Row) : ScheduleEntry :=
  { moderator_name := r.leadName
    discord_username := ""
    shift_start_datetime := rowStart r
    shift_end_datetime := rowEnd r
    role := "Lead Mod" }

/-- The Overflow entry built for a row whose overflow cell is non-empty
    and not the sentinel "Not available". -/
def overflowEntry (r : Row) : ScheduleEntry :=
  { moderator_name := r.overflowName
    discord_username := ""
    shift_start_datetime := rowStart r
    shift_end_datetime := rowEnd r
    role := "Overflow" }

/-- The entries one row contributes to each of its date buckets, in the
    order the code appends them: Mod, then Lead Mod, then Overflow. -/
def rowEntries (r : Row) : List ScheduleEntry :=
  [modEntry r]
    ++ (if r.leadName ≠ "" then [leadEntry r] else [])
    ++ (if r.overflowName ≠ "" ∧ r.overflowName ≠ "Not available" then
          [overflowEntry r]
        else [])

/-- The date-bucket view of schedule_by_date: the entries listed under a
    calendar date, rows in sheet order, each row contributing its entries
    to every date in its `dates` list. -/
def scheduleByDate (rows : List Row) (d : Int) : List ScheduleEntry :=
  rows.flatMap (fun r => if d ∈ rowDates r then rowEntries r else [])

/-- ScheduleSheet.get_schedule_entries: when get_sheet produced no sheet
    it returns the empty index, otherwise the index of the sheet's valid
    rows. -/
def get_schedule_entries (sheet : Option (List Row)) : Int → List ScheduleEntry :=
  match sheet with
  | none => fun _ => []
  | some rows => scheduleByDate rows

/-- ModeratorTracker.refresh_schedule: an exception raised while building
    the ScheduleSheet or reading its records is caught and the prior index
    kept; otherwise the index is replaced by whatever
    get_schedule_entries returned (the empty index when get_sheet
    swallowed its failure and returned no sheet). -/
def refresh_schedule (idx : Int → List ScheduleEntry)
    (fetch : Except String (Option (List Row))) : Int → List ScheduleEntry :=
  match fetch with
  | .error _ => idx
  | .ok sheet => get_schedule_entries sheet

/-- A one-row index used as the concrete prior state in claims about
    schedule refresh. -/
def sampleRow : Row :=
  { name := "Jane Doe"
    discord := "jane#1234"
    date := 20000
    startTime := 540
    endTime := 660
    leadName := ""
    overflowName := "" }

/-- A previously loaded non-empty schedule index. -/
def samplePriorIndex : Int → List ScheduleEntry := scheduleByDate [sampleRow]

/-- The 11:00 PM to 1:00 AM overnight row of the spec example, on a
    concrete date. -/
def overnightRow : Row :=
  { name := "A"
    discord := ""
    date := 100
    startTime := 1380
    endTime := 60
    leadName := ""
    overflowName := "" }

/-- A concrete row whose overflow cell holds a real name. -/
def overflowRow : Row :=
  { name := "A"
    discord := ""
    date := 100
    startTime := 540
    endTime := 660
    leadName := ""
    overflowName := "Extra Person" }

/- ------------------------------------------------------------------ -/
/- User Matcher (ModeratorTracker.match_user / extract_discord_tag)   -/
/- ------------------------------------------------------------------ -/

/-- str.lower() on the ASCII data the matcher handles. -/
def lowerStr (s : String) : String := (s.toList.map Char.toLower).asString

/-- str.strip(): drop leading and trailing whitespace. -/
def stripStr (s : String) : String :=
  ((s.toList.dropWhile Char.isWhitespace).reverse.dropWhile
    Char.isWhitespace).reverse.asString

/-- The live identity fields the matcher reads from a discord user:
    display_name, name, and str(user) (the tag). -/
structure DiscordUser where
  id : Nat
  display_name : String
  name : String
  tag : String
deriving DecidableEq, Repr

/-- A character of the regex class [a-zA-Z0-9_]. -/
def isWordChar (c : Char) : Bool := c.isAlphanum || c = '_'

/-- A match of the pattern [a-zA-Z0-9_]+#[0-9]{4} anchored at the head of
    the text.  The greedy word run never backtracks because '#' is not a
    word character. -/
def tagMatchAt (l : List Char) : Option (List Char) :=
  let w := l.takeWhile isWordChar
  match w, l.dropWhile isWordChar with
  | [], _ => none
  | _, '#' :: d1 :: d2 :: d3 :: d4 :: _ =>
    if d1.isDigit && d2.isDigit && d3.isDigit && d4.isDigit then
      some (w ++ ['#', d1, d2, d3, d4])
    else none
  | _, _ => none

/-- re.search: try each start position from the left. -/
def tagSearch : List Char → Option (List Char)
  | [] => none
  | c :: rest =>
    match tagMatchAt (c :: rest) with
    | some m => some m
    | none => tagSearch rest

/-- ModeratorTracker.extract_discord_tag: the leftmost occurrence of a
    name#NNNN tag in the text, or none. -/
def extract_discord_tag (s : String) : Option String :=
  (tagSearch s.toList).map List.asString

/-- The per-name cleanup in match_user: remove parentheses and square
    brackets, then strip surrounding whitespace. -/
def cleanEntryName (s : String) : String :=
  stripStr ((s.toList.filter
    (fun c => !(c = '(' || c = ')' || c = '[' || c = ']'))).asString)

/-- user_names: the lowered display name, username and tag. -/
def userNames (u : DiscordUser) : List String :=
  [lowerStr u.display_name, lowerStr u.name, lowerStr u.tag]

/-- entry_names_cleaned: the lowered then cleaned handle text and
    moderator name of a schedule entry. -/
def entryNamesCleaned (e : ScheduleEntry) : List String :=
  [cleanEntryName (lowerStr e.discord_username),
   cleanEntryName (lowerStr e.moderator_name)]

/-- entry_discord_tags: the tags extracted from the cleaned entry
    names, lowered. -/
def entryDiscordTags (e : ScheduleEntry) : List String :=
  (entryNamesCleaned e).filterMap
    (fun n => (extract_discord_tag n).map lowerStr)

/-- Python's substring test `needle in hay`: a contiguous substring, the
    empty string being contained in everything. -/
def strIn (needle hay : String) : Bool :=
  decide (needle.toList <:+: hay.toList)

/-- ModeratorTracker.match_user, parameterized by the external rapidfuzz
    fuzz.token_set_ratio scorer (0 to 100). -/
def match_user (ratio : String → String → Nat) (e : ScheduleEntry)
    (u : DiscordUser) : Bool :=
  if lowerStr u.tag ∈ entryDiscordTags e then
    true
  else
    (userNames u).any (fun uv =>
      (entryNamesCleaned e).any (fun en =>
        decide (85 ≤ ratio uv en) || strIn uv en || strIn en uv))

/-- Modelled from the spec's words for comparison: the matcher with rule
    3 demanding that a side be a NON-EMPTY substring of the other. -/
def match_user_spec (ratio : String → String → Nat) (e : ScheduleEntry)
    (u : DiscordUser) : Bool :=
  decide (lowerStr u.tag ∈ entryDiscordTags e)
  || (userNames u).any (fun uv =>
      (entryNamesCleaned e).any (fun en =>
        decide (85 ≤ ratio uv en)
        || (!uv.isEmpty && strIn uv en)
        || (!en.isEmpty && strIn en uv)))

/-- The unrelated identity of the spec's negative matcher example. -/
def zzzUser : DiscordUser :=
  { id := 1
    display_name := "zzz"
    name := "zzz"
    tag := "zzz#0001" }

/-- A schedule entry with name "Jane Doe" and an empty handle. -/
def janeEntry : ScheduleEntry :=
  { moderator_name := "Jane Doe"
    discord_username := ""
    shift_start_datetime := 0
    shift_end_datetime := 60
    role := "Mod" }

/- ------------------------------------------------------------------ -/
/- Moderator Tracker state (moderator_tracking.py)                    -/
/- ------------------------------------------------------------------ -/

/-- CheckedInModerator: the tracked record, instants in minutes. -/
structure CheckedInModerator where
  user_id : Nat
  display_name : String
  username : String
  group : String
  check_in_time : Int
  shift_end_time : Int
deriving DecidableEq, Repr

/-- CheckedInModerator.__init__: the check-in time defaults to the
    current instant, and shift_end_time is the check-in time plus the
    shift duration (timedelta(hours=shift_duration), here minutes). -/
def CheckedInModerator.init (user_id : Nat)
    (display_name username group : String) (check_in_time : Option Int)
    (now : Int) (shift_duration : Int) : CheckedInModerator :=
  let t := check_in_time.getD now
  { user_id := user_id
    display_name := display_name
    username := username
    group := group
    check_in_time := t
    shift_end_time := t + shift_duration }

/-- CheckedInModerator.is_shift_over at a given current instant. -/
def CheckedInModerator.is_shift_over (m : CheckedInModerator) (now : Int) :
    Bool :=
  decide (now ≥ m.shift_end_time)

/-- Python dict lookup on an insertion-ordered association list. -/
def dget {α β : Type} [DecidableEq α] (l : List (α × β)) (k : α) : Option β :=
  (l.find? (fun p => decide (p.1 = k))).map Prod.snd

/-- Python dict assignment: replace the value at an existing key in
    place, else append the new key at the end. -/
def dset {α β : Type} [DecidableEq α] :
    List (α × β) → α → β → List (α × β)
  | [], k, v => [(k, v)]
  | (a, b) :: l, k, v =>
    if a = k then (k, v) :: l else (a, b) :: dset l k v

/-- Python dict deletion of a key. -/
def ddel {α β : Type} [DecidableEq α] (l : List (α × β)) (k : α) :
    List (α × β) :=
  l.filter (fun p => decide (p.1 ≠ k))

/-- The key view of an association list. -/
def keysOf {α β : Type} (l : List (α × β)) : List α := l.map Prod.fst

/-- A group's bucket: user id to tracked record. -/
abbrev Bucket := List (Nat × CheckedInModerator)

/-- ModeratorTracker.moderators: group name to bucket. -/
abbrev Moderators := List (String × Bucket)

/-- The search loop at the top of check_in_moderator: the first group
    whose bucket holds this user, together with the existing record. -/
def findExisting (m : Moderators) (uid : Nat) :
    Option (String × CheckedInModerator) :=
  m.findSome? (fun gb => (dget gb.2 uid).map (fun ex => (gb.1, ex)))

/-- ModeratorTracker.check_in_moderator: preserve the existing check-in
    time when the user is already tracked, drop the old record when the
    group changed, then store the record under its group. -/
def check_in_moderator (m : Moderators) (r : CheckedInModerator) :
    Moderators :=
  match findExisting m r.user_id with
  | some (g, ex) =>
    let r' := { r with check_in_time := ex.check_in_time }
    let m1 :=
      if g ≠ r'.group then
        m.map (fun gb => if gb.1 = g then (g, ddel gb.2 r.user_id) else gb)
      else m
    dset m1 r'.group (dset ((dget m1 r'.group).getD []) r.user_id r')
  | none =>
    dset m r.group (dset ((dget m r.group).getD []) r.user_id r)

/-- ModeratorTracker.check_out_moderator; indexing the defaultdict also
    records an empty bucket for a group never seen before. -/
def check_out_moderator (m : Moderators) (uid : Nat) (group : String) :
    Moderators :=
  let m1 := if (dget m group).isSome then m else m ++ [(group, [])]
  m1.map (fun gb => if gb.1 = group then (group, ddel gb.2 uid) else gb)

/-- ModeratorTracker.auto_check_out_moderators at a fixed current
    instant: delete every record whose shift is over. -/
def auto_check_out_moderators (m : Moderators) (now : Int) : Moderators :=
  m.map (fun gb =>
    (gb.1, gb.2.filter (fun p => !(p.2.is_shift_over now))))

/-- The record tracked for a user under a group. -/
def getMod (m : Moderators) (g : String) (uid : Nat) :
    Option CheckedInModerator :=
  (dget m g).bind (fun b => dget b uid)

/-- A user is tracked under a group. -/
def tracked (m : Moderators) (g : String) (uid : Nat) : Prop :=
  (getMod m g uid).isSome

/-- Well-formed dictionary shape: group keys unique and user keys unique
    inside every bucket, as Python dicts guarantee. -/
def WFMods (m : Moderators) : Prop :=
  (keysOf m).Nodup ∧ ∀ gb ∈ m, (keysOf gb.2).Nodup

/-- Each user id is tracked under at most one group. -/
def UserUnique (m : Moderators) : Prop :=
  ∀ gb1 ∈ m, ∀ gb2 ∈ m, ∀ uid ∈ keysOf gb1.2,
    uid ∈ keysOf gb2.2 → gb1.1 = gb2.1

/-- The record check_in_moderator ends up storing: the given record,
    with the check-in time of an already-tracked user preserved. -/
def storedRecord (m : Moderators) (r : CheckedInModerator) :
    CheckedInModerator :=
  { r with
    check_in_time :=
      ((findExisting m r.user_id).map
        (fun p => p.2.check_in_time)).getD r.check_in_time }

/-- The concrete first check-in: user 1 checks in at minute 0 for a
    two-hour (120 minute) shift. -/
def c1State0 : Moderators :=
  check_in_moderator []
    (CheckedInModerator.init 1 "jane" "jane" "Mod" (some 0) 0 120)

/-- The same user checks in again 30 minutes later, again for 120
    minutes. -/
def c1State1 : Moderators :=
  check_in_moderator c1State0
    (CheckedInModerator.init 1 "jane" "jane" "Mod" (some 30) 30 120)

/-- The record the tracker holds after the repeated check-in. -/
def c1Record : CheckedInModerator :=
  { user_id := 1
    display_name := "jane"
    username := "jane"
    group := "Mod"
    check_in_time := 0
    shift_end_time := 150 }

/-- The record stored by the first concrete check-in: minute 0, ending
    at minute 120, group Mod. -/
def c2OldRec : CheckedInModerator :=
  { user_id := 1
    display_name := "jane"
    username := "jane"
    group := "Mod"
    check_in_time := 0
    shift_end_time := 120 }

/-- The fresh record of a repeated check-in 30 minutes later under the
    changed group Lead Mod. -/
def c2NewRec : CheckedInModerator :=
  CheckedInModerator.init 1 "jane" "jane" "Lead Mod" (some 30) 30 120

instance : Std.Antisymm (fun x1 x2 : Int => x1 ≤ x2) :=
  ⟨fun h1 h2 => le_antisymm h1 h2⟩

/-- The entries of the day whose window contains the instant, as the
    code tests it: shift start <= now <= shift end, both ends included. -/
def activeEntries (entries : List ScheduleEntry) (now : Int) :
    List ScheduleEntry :=
  entries.filter (fun e =>
    decide (e.shift_start_datetime ≤ now ∧ now ≤ e.shift_end_datetime))

/-- ModeratorTracker.get_current_shift_times over today's entries: the
    earliest start and latest end of the active entries, or both None. -/
def get_current_shift_times (entries : List ScheduleEntry) (now : Int) :
    Option Int × Option Int :=
  match ((activeEntries entries now).map
           (fun e => e.shift_start_datetime)).min?,
        ((activeEntries entries now).map
           (fun e => e.shift_end_datetime)).max? with
  | some s, some t => (some s, some t)
  | _, _ => (none, none)

/-- Modelled from the spec's words for comparison: the same resolution
    over half-open [start, end) windows, excluding the end instant. -/
def get_current_shift_times_halfOpen (entries : List ScheduleEntry)
    (now : Int) : Option Int × Option Int :=
  match ((entries.filter (fun e =>
          decide (e.shift_start_datetime ≤ now
            ∧ now < e.shift_end_datetime))).map
           (fun e => e.shift_start_datetime)).min?,
        ((entries.filter (fun e =>
          decide (e.shift_start_datetime ≤ now
            ∧ now < e.shift_end_datetime))).map
           (fun e => e.shift_end_datetime)).max? with
  | some s, some t => (some s, some t)
  | _, _ => (none, none)

/-- A 9:00-to-11:00 entry (minutes 540 to 660). -/
def morningEntry : ScheduleEntry :=
  { moderator_name := "A"
    discord_username := ""
    shift_start_datetime := 540
    shift_end_datetime := 660
    role := "Mod" }

/-- A 10:00-to-12:00 Overflow entry overlapping the morning entry. -/
def middayEntry : ScheduleEntry :=
  { moderator_name := "B"
    discord_username := ""
    shift_start_datetime := 600
    shift_end_datetime := 720
    role := "Overflow" }

/-- The group and shift-duration resolution in mod_checkin: the first of
    today's entries that matches the user and whose window contains the
    current instant gives its role and its window length (in minutes
    here, hours in the code); with no such entry the defaults are the
    group Floating and a one-hour duration. -/
def mod_checkin_resolve (ratio : String → String → Nat)
    (entries : List ScheduleEntry) (u : DiscordUser) (now : Int) :
    String × Int :=
  match entries.find? (fun e => match_user ratio e u
      && decide (e.shift_start_datetime ≤ now
          ∧ now ≤ e.shift_end_datetime)) with
  | some e => (e.role, e.shift_end_datetime - e.shift_start_datetime)
  | none => ("Floating", 60)

/-- mod_checkin: build the record at the current instant with the
    resolved group and duration and hand it to check_in_moderator. -/
def mod_checkin (ratio : String → String → Nat) (m : Moderators)
    (entries : List ScheduleEntry) (u : DiscordUser) (now : Int) :
    Moderators :=
  check_in_moderator m
    (CheckedInModerator.init u.id u.display_name u.tag
      (mod_checkin_resolve ratio entries u now).1 (some now) now
      (mod_checkin_resolve ratio entries u now).2)

/-- The live identity of the scheduled moderator Jane. -/
def janeUser : DiscordUser :=
  { id := 7
    display_name := "Jane Doe"
    name := "janedoe"
    tag := "janedoe#0001" }

/-- Jane's 9:00-to-11:00 scheduled shift. -/
def janeShift : ScheduleEntry :=
  { moderator_name := "Jane Doe"
    discord_username := "jane doe"
    shift_start_datetime := 540
    shift_end_datetime := 660
    role := "Mod" }

/-- Modelled from the spec's words for comparison: the check-in group
    and duration resolution with the entry's window taken as the spec's
    half-open [start, end) range, excluding the end instant. -/
def mod_checkin_resolve_halfOpen (ratio : String → String → Nat)
    (entries : List ScheduleEntry) (u : DiscordUser) (now : Int) :
    String × Int :=
  match entries.find? (fun e => match_user ratio e u
      && decide (e.shift_start_datetime ≤ now
          ∧ now < e.shift_end_datetime)) with
  | some e => (e.role, e.shift_end_datetime - e.shift_start_datetime)
  | none => ("Floating", 60)

theorem dateOf_rowStart (r : Row) (h0 : 0 ≤ r.startTime) (h1 : r.startTime < 1440) :
    dateOf (rowStart r) = r.date := by
  unfold dateOf rowStart
  omega

theorem dateOf_rowEnd_of_cross (r : Row) (hs0 : 0 ≤ r.startTime)
    (hs1 : r.startTime < 1440) (he0 : 0 ≤ r.endTime) (he1 : r.endTime < 1440)
    (hc : r.endTime ≤ r.startTime) : dateOf (rowEnd r) = r.date + 1 := by
  unfold dateOf rowEnd rowEndRaw rowStart
  rw [if_pos (by omega)]
  omega

theorem dateOf_rowEnd_of_same_day (r : Row) (_hs0 : 0 ≤ r.startTime)
    (he0 : 0 ≤ r.endTime) (he1 : r.endTime < 1440)
    (hc : r.startTime < r.endTime) : dateOf (rowEnd r) = r.date := by
  unfold dateOf rowEnd rowEndRaw rowStart
  rw [if_neg (by omega)]
  omega

theorem mem_scheduleByDate_of_mem_rowDates (rows : List Row) (r : Row)
    (hr : r ∈ rows) (d : Int) (hd : d ∈ rowDates r) (e : ScheduleEntry)
    (he : e ∈ rowEntries r) : e ∈ scheduleByDate rows d := by
  unfold scheduleByDate
  rw [List.mem_flatMap]
  exact ⟨r, hr, by rw [if_pos hd]; exact he⟩

theorem modEntry_mem_rowEntries (r : Row) : modEntry r ∈ rowEntries r := by
  unfold rowEntries
  simp

/-- C6: a valid row whose raw end time is at or before its raw start time
    gets one day added to its end instant, so the derived entry's end
    falls on the next calendar date and the entry is indexed under both
    dates; a row whose window stays inside one day is indexed under
    exactly that one date. -/
theorem c6_midnight_crossing (rows : List Row) (r : Row) (hr : r ∈ rows)
    (hs0 : 0 ≤ r.startTime) (hs1 : r.startTime < 1440)
    (he0 : 0 ≤ r.endTime) (he1 : r.endTime < 1440) :
    (r.endTime ≤ r.startTime →
      dateOf (modEntry r).shift_end_datetime = r.date + 1
      ∧ modEntry r ∈ scheduleByDate rows r.date
      ∧ modEntry r ∈ scheduleByDate rows (r.date + 1))
    ∧ (r.startTime < r.endTime →
      ∀ d : Int, (modEntry r ∈ scheduleByDate [r] d ↔ d = r.date)) := by
  constructor
  · intro hc
    have hstart := dateOf_rowStart r hs0 hs1
    have hend := dateOf_rowEnd_of_cross r hs0 hs1 he0 he1 hc
    have hdates : rowDates r = [r.date, r.date + 1] := by
      unfold rowDates
      rw [hstart, hend, if_pos (by omega)]
    refine ⟨hend, ?_, ?_⟩
    · exact mem_scheduleByDate_of_mem_rowDates rows r hr r.date
        (by rw [hdates]; simp) (modEntry r) (modEntry_mem_rowEntries r)
    · exact mem_scheduleByDate_of_mem_rowDates rows r hr (r.date + 1)
        (by rw [hdates]; simp) (modEntry r) (modEntry_mem_rowEntries r)
  · intro hc d
    have hstart := dateOf_rowStart r hs0 hs1
    have hend := dateOf_rowEnd_of_same_day r hs0 he0 he1 hc
    have hdates : rowDates r = [r.date] := by
      unfold rowDates
      rw [hstart, hend, if_neg (by omega)]
    constructor
    · intro hmem
      unfold scheduleByDate at hmem
      rw [List.mem_flatMap] at hmem
      obtain ⟨r', hr', hmem⟩ := hmem
      simp only [List.mem_singleton] at hr'
      subst hr'
      by_contra hne
      rw [if_neg (by rw [hdates]; simpa using hne)] at hmem
      exact absurd hmem (List.not_mem_nil _)
    · intro hd
      subst hd
      exact mem_scheduleByDate_of_mem_rowDates [r] r (by simp) r.date
        (by rw [hdates]; simp) (modEntry r) (modEntry_mem_rowEntries r)

/-- C6 witness: the overnight row instantiates the claim's hypotheses. -/
theorem c6_midnight_crossing_witness :
    dateOf (modEntry overnightRow).shift_end_datetime = 101
    ∧ modEntry overnightRow ∈ scheduleByDate [overnightRow] 100
    ∧ modEntry overnightRow ∈ scheduleByDate [overnightRow] 101 :=
  (c6_midnight_crossing [overnightRow] overnightRow (by simp) (by decide)
    (by decide) (by decide) (by decide)).1 (by decide)

/-- C8: a row whose overflow cell is empty or exactly the sentinel
    "Not available" produces no Overflow entry; any other overflow value
    produces exactly one Overflow entry, sharing the Mod entry's start
    and end instants. -/
theorem c8_overflow_sentinel (r : Row) :
    ((r.overflowName = "Not available" ∨ r.overflowName = "") →
      (rowEntries r).filter (fun e => decide (e.role = "Overflow")) = [])
    ∧ (r.overflowName ≠ "Not available" → r.overflowName ≠ "" →
      (rowEntries r).filter (fun e => decide (e.role = "Overflow"))
          = [overflowEntry r]
      ∧ (overflowEntry r).shift_start_datetime
          = (modEntry r).shift_start_datetime
      ∧ (overflowEntry r).shift_end_datetime
          = (modEntry r).shift_end_datetime) := by
  constructor
  · intro h
    have hov : ¬(r.overflowName ≠ "" ∧ r.overflowName ≠ "Not available") := by
      rcases h with h | h <;> simp [h]
    unfold rowEntries
    rw [if_neg hov]
    by_cases hl : r.leadName ≠ "" <;>
      simp [hl, modEntry, leadEntry]
  · intro h1 h2
    refine ⟨?_, rfl, rfl⟩
    have hov : r.overflowName ≠ "" ∧ r.overflowName ≠ "Not available" := ⟨h2, h1⟩
    unfold rowEntries
    rw [if_pos hov]
    by_cases hl : r.leadName ≠ "" <;>
      simp [hl, modEntry, leadEntry, overflowEntry]

/-- C8 witness: the concrete overflow row produces exactly one Overflow
    entry with the Mod entry's window. -/
theorem c8_overflow_sentinel_witness :
    (rowEntries overflowRow).filter (fun e => decide (e.role = "Overflow"))
      = [overflowEntry overflowRow]
    ∧ (overflowEntry overflowRow).shift_start_datetime
      = (modEntry overflowRow).shift_start_datetime
    ∧ (overflowEntry overflowRow).shift_end_datetime
      = (modEntry overflowRow).shift_end_datetime :=
  (c8_overflow_sentinel overflowRow).2 (by decide) (by decide)

/-- C3: the code contradicts the keep-prior-index contract.  With a
    previously loaded non-empty index, a refresh whose sheet fetch was
    swallowed inside get_sheet (no sheet returned, no exception) replaces
    the index with the empty one instead of keeping it. -/
theorem c3_refresh_wipes_index :
    refresh_schedule samplePriorIndex (Except.ok none) 20000 = []
    ∧ samplePriorIndex 20000 ≠ [] := by
  constructor
  · rfl
  · decide

/-- C5 counterexample: the identity "zzz" does match the entry with name
    "Jane Doe" and empty handle, because the cleaned empty handle is a
    (empty) substring of every identity variant; the spec's non-empty
    substring rule says no match.  The scorer is instantiated with the
    constant 0 (the token_set_ratio of token-disjoint strings). -/
theorem c5_counterexample :
    match_user (fun _ _ => 0) janeEntry zzzUser = true
    ∧ match_user_spec (fun _ _ => 0) janeEntry zzzUser = false := by
  constructor <;> decide

/-- C5 amended: the matcher returns true exactly when the tag rule, the
    fuzzy rule, or the PLAIN substring rule (the empty string counting as
    a substring of everything) succeeds, for every scorer. -/
theorem c5_amended_match_characterization (ratio : String → String → Nat)
    (e : ScheduleEntry) (u : DiscordUser) :
    match_user ratio e u = true ↔
      (lowerStr u.tag ∈ entryDiscordTags e
       ∨ (∃ uv ∈ userNames u, ∃ en ∈ entryNamesCleaned e, 85 ≤ ratio uv en)
       ∨ (∃ uv ∈ userNames u, ∃ en ∈ entryNamesCleaned e,
            uv.toList <:+: en.toList ∨ en.toList <:+: uv.toList)) := by
  unfold match_user
  by_cases h : lowerStr u.tag ∈ entryDiscordTags e
  · simp [h]
  · simp only [h, if_false, List.any_eq_true, Bool.or_eq_true,
      decide_eq_true_eq, strIn, false_or]
    constructor
    · rintro ⟨uv, huv, en, hen, (h85 | hs1) | hs2⟩
      · exact Or.inl ⟨uv, huv, en, hen, h85⟩
      · exact Or.inr ⟨uv, huv, en, hen, Or.inl hs1⟩
      · exact Or.inr ⟨uv, huv, en, hen, Or.inr hs2⟩
    · rintro (⟨uv, huv, en, hen, h85⟩ | ⟨uv, huv, en, hen, hs1 | hs2⟩)
      · exact ⟨uv, huv, en, hen, Or.inl (Or.inl h85)⟩
      · exact ⟨uv, huv, en, hen, Or.inl (Or.inr hs1)⟩
      · exact ⟨uv, huv, en, hen, Or.inr hs2⟩

theorem dget_nil {α β : Type} [DecidableEq α] (k : α) :
    dget ([] : List (α × β)) k = none := rfl

theorem dget_cons {α β : Type} [DecidableEq α] (a : α) (b : β)
    (l : List (α × β)) (k : α) :
    dget ((a, b) :: l) k = if a = k then some b else dget l k := by
  unfold dget
  rw [List.find?_cons]
  by_cases h : a = k <;> simp [h]

theorem dget_dset_self {α β : Type} [DecidableEq α] (l : List (α × β))
    (k : α) (v : β) : dget (dset l k v) k = some v := by
  induction l with
  | nil => simp [dset, dget_cons]
  | cons p l ih =>
    obtain ⟨a, b⟩ := p
    unfold dset
    by_cases h : a = k
    · rw [if_pos h, dget_cons, if_pos rfl]
    · rw [if_neg h, dget_cons, if_neg h]
      exact ih

theorem dget_dset_ne {α β : Type} [DecidableEq α] (l : List (α × β))
    (k k' : α) (v : β) (h : k' ≠ k) : dget (dset l k v) k' = dget l k' := by
  induction l with
  | nil =>
    show dget [(k, v)] k' = none
    rw [dget_cons, if_neg (fun h' => h h'.symm), dget_nil]
  | cons p l ih =>
    obtain ⟨a, b⟩ := p
    unfold dset
    by_cases ha : a = k
    · rw [if_pos ha, dget_cons, dget_cons, if_neg (fun h' => h h'.symm),
        if_neg (by rw [ha]; exact fun h' => h h'.symm)]
    · rw [if_neg ha, dget_cons, dget_cons]
      by_cases ha' : a = k'
      · rw [if_pos ha', if_pos ha']
      · rw [if_neg ha', if_neg ha']
        exact ih

theorem dget_ddel_self {α β : Type} [DecidableEq α] (l : List (α × β))
    (k : α) : dget (ddel l k) k = none := by
  induction l with
  | nil => rfl
  | cons p l ih =>
    obtain ⟨a, b⟩ := p
    unfold ddel
    rw [List.filter_cons]
    by_cases h : a = k
    · rw [if_neg (by simp [h])]
      exact ih
    · rw [if_pos (by simp [h]), dget_cons, if_neg h]
      exact ih

theorem dget_ddel_ne {α β : Type} [DecidableEq α] (l : List (α × β))
    (k k' : α) (h : k' ≠ k) : dget (ddel l k) k' = dget l k' := by
  induction l with
  | nil => rfl
  | cons p l ih =>
    obtain ⟨a, b⟩ := p
    unfold ddel
    rw [List.filter_cons]
    by_cases ha : a = k
    · rw [if_neg (by simp [ha]), dget_cons,
        if_neg (by rw [ha]; exact fun h' => h h'.symm)]
      exact ih
    · rw [if_pos (by simp [ha]), dget_cons, dget_cons]
      by_cases ha' : a = k'
      · rw [if_pos ha', if_pos ha']
      · rw [if_neg ha', if_neg ha']
        exact ih

theorem dget_map_snd {α β γ : Type} [DecidableEq α] (l : List (α × β))
    (f : α × β → γ) (k : α) :
    dget (l.map (fun p => (p.1, f p))) k = (dget l k).map (fun b => f (k, b)) := by
  induction l with
  | nil => rfl
  | cons p l ih =>
    obtain ⟨a, b⟩ := p
    rw [List.map_cons, dget_cons, dget_cons]
    by_cases h : a = k
    · subst h
      simp
    · simpa [h] using ih

theorem dget_isSome_iff_mem_keys {α β : Type} [DecidableEq α]
    (l : List (α × β)) (k : α) : (dget l k).isSome ↔ k ∈ keysOf l := by
  induction l with
  | nil => simp [dget_nil, keysOf]
  | cons p l ih =>
    obtain ⟨a, b⟩ := p
    rw [dget_cons]
    by_cases h : a = k
    · simp [h, keysOf]
    · simp only [if_neg h, keysOf, List.map_cons, List.mem_cons]
      rw [show keysOf l = l.map Prod.fst from rfl] at ih
      rw [ih]
      constructor
      · exact fun hk => Or.inr hk
      · rintro (hk | hk)
        · exact absurd hk.symm h
        · exact hk

theorem dget_eq_none_of_not_mem_keys {α β : Type} [DecidableEq α]
    {l : List (α × β)} {k : α} (h : k ∉ keysOf l) : dget l k = none := by
  cases hg : dget l k with
  | none => rfl
  | some v =>
    exact absurd ((dget_isSome_iff_mem_keys l k).mp (by rw [hg]; rfl)) h

theorem mem_of_dget_eq_some {α β : Type} [DecidableEq α]
    {l : List (α × β)} {k : α} {v : β} (h : dget l k = some v) : (k, v) ∈ l := by
  unfold dget at h
  cases hf : l.find? (fun p => decide (p.1 = k)) with
  | none => rw [hf] at h; exact absurd h (by simp)
  | some p =>
    rw [hf] at h
    have hp := List.find?_some hf
    have hm := List.mem_of_find?_eq_some hf
    have h2 : p.2 = v := by simpa using h
    have h1 : p.1 = k := by simpa using hp
    rw [← h2, ← h1]
    exact hm

theorem dset_cons_self {α β : Type} [DecidableEq α] (l : List (α × β))
    (k : α) (b v : β) : dset ((k, b) :: l) k v = (k, v) :: l := by
  unfold dset
  rw [if_pos rfl]

theorem dset_cons_ne {α β : Type} [DecidableEq α] (l : List (α × β))
    (a k : α) (b : β) (v : β) (h : a ≠ k) :
    dset ((a, b) :: l) k v = (a, b) :: dset l k v := by
  simp only [dset]
  rw [if_neg h]

theorem mem_keysOf_dset {α β : Type} [DecidableEq α] (l : List (α × β))
    (k k' : α) (v : β) :
    k' ∈ keysOf (dset l k v) ↔ k' ∈ keysOf l ∨ k' = k := by
  induction l with
  | nil => simp [dset, keysOf]
  | cons p l ih =>
    obtain ⟨a, b⟩ := p
    by_cases h : a = k
    · subst h
      rw [dset_cons_self]
      simp only [keysOf, List.map_cons, List.mem_cons]
      tauto
    · rw [dset_cons_ne l a k b v h]
      simp only [keysOf, List.map_cons, List.mem_cons] at ih ⊢
      rw [ih]
      tauto

theorem nodup_keysOf_dset {α β : Type} [DecidableEq α] (l : List (α × β))
    (k : α) (v : β) (h : (keysOf l).Nodup) :
    (keysOf (dset l k v)).Nodup := by
  induction l with
  | nil => simp [dset, keysOf]
  | cons p l ih =>
    obtain ⟨a, b⟩ := p
    simp only [keysOf, List.map_cons, List.nodup_cons] at h
    by_cases hk : a = k
    · subst hk
      rw [dset_cons_self]
      simp only [keysOf, List.map_cons, List.nodup_cons]
      exact h
    · rw [dset_cons_ne l a k b v hk]
      simp only [keysOf, List.map_cons, List.nodup_cons]
      refine ⟨?_, ih h.2⟩
      rw [show (dset l k v).map Prod.fst = keysOf (dset l k v) from rfl,
        mem_keysOf_dset]
      rintro (h1 | h1)
      · exact h.1 h1
      · exact hk h1

theorem mem_dset_elem {α β : Type} [DecidableEq α] {l : List (α × β)}
    {k : α} {v : β} {p : α × β} (h : p ∈ dset l k v) :
    p ∈ l ∨ p = (k, v) := by
  induction l with
  | nil => simpa [dset] using h
  | cons q l ih =>
    obtain ⟨a, b⟩ := q
    unfold dset at h
    by_cases hk : a = k
    · rw [if_pos hk] at h
      rcases List.mem_cons.mp h with h1 | h1
      · exact Or.inr h1
      · exact Or.inl (List.mem_cons_of_mem _ h1)
    · rw [if_neg hk] at h
      rcases List.mem_cons.mp h with h1 | h1
      · exact Or.inl (h1 ▸ List.mem_cons_self _ _)
      · rcases ih h1 with h2 | h2
        · exact Or.inl (List.mem_cons_of_mem _ h2)
        · exact Or.inr h2

theorem dget_map_ddel (m : Moderators) (g0 : String) (u0 : Nat) (k : String) :
    dget (m.map (fun gb => if gb.1 = g0 then (g0, ddel gb.2 u0) else gb)) k
      = if k = g0 then (dget m g0).map (fun b => ddel b u0) else dget m k := by
  induction m with
  | nil => by_cases h : k = g0 <;> simp [h, dget_nil]
  | cons p m ih =>
    obtain ⟨a, b⟩ := p
    rw [List.map_cons]
    by_cases ha : a = g0
    · subst ha
      rw [if_pos rfl]
      by_cases hk : a = k
      · subst hk
        simp [dget_cons, ih]
      · simp [dget_cons, ih, hk, Ne.symm hk]
    · rw [if_neg ha]
      by_cases hk : a = k
      · subst hk
        simp [dget_cons, ih, ha, Ne.symm ha]
      · simp [dget_cons, ih, hk, ha]

theorem keysOf_map_ddel (m : Moderators) (g0 : String) (u0 : Nat) :
    keysOf (m.map (fun gb => if gb.1 = g0 then (g0, ddel gb.2 u0) else gb))
      = keysOf m := by
  induction m with
  | nil => rfl
  | cons p m ih =>
    obtain ⟨a, b⟩ := p
    rw [List.map_cons]
    by_cases ha : a = g0
    · subst ha
      rw [if_pos rfl]
      simpa [keysOf] using ih
    · rw [if_neg ha]
      simpa [keysOf] using ih

theorem dget_auto (m : Moderators) (now : Int) (k : String) :
    dget (auto_check_out_moderators m now) k
      = (dget m k).map
          (fun b => b.filter (fun p => !(p.2.is_shift_over now))) := by
  induction m with
  | nil => rfl
  | cons p m ih =>
    obtain ⟨a, b⟩ := p
    unfold auto_check_out_moderators at ih ⊢
    rw [List.map_cons, dget_cons, dget_cons]
    by_cases h : a = k
    · rw [if_pos h, if_pos h]
      simp
    · rw [if_neg h, if_neg h, ih]

theorem keysOf_auto (m : Moderators) (now : Int) :
    keysOf (auto_check_out_moderators m now) = keysOf m := by
  induction m with
  | nil => rfl
  | cons p m ih =>
    obtain ⟨a, b⟩ := p
    unfold auto_check_out_moderators at ih ⊢
    rw [List.map_cons]
    simpa [keysOf] using ih

theorem dget_append {α β : Type} [DecidableEq α] (l1 l2 : List (α × β))
    (k : α) : dget (l1 ++ l2) k = (dget l1 k).or (dget l2 k) := by
  unfold dget
  rw [List.find?_append]
  cases l1.find? (fun p => decide (p.1 = k)) <;> simp

theorem dget_of_mem_nodup {α β : Type} [DecidableEq α] {l : List (α × β)}
    {k : α} {v : β} (hnd : (keysOf l).Nodup) (h : (k, v) ∈ l) :
    dget l k = some v := by
  induction l with
  | nil => exact absurd h (List.not_mem_nil _)
  | cons p l ih =>
    obtain ⟨a, b⟩ := p
    simp only [keysOf, List.map_cons, List.nodup_cons] at hnd
    rw [dget_cons]
    rcases List.mem_cons.mp h with h1 | h1
    · injection h1 with h2 h3
      rw [if_pos h2.symm, h3]
    · have hak : a ≠ k := by
        intro hak
        subst hak
        exact hnd.1 (List.mem_map_of_mem Prod.fst h1)
      rw [if_neg hak]
      exact ih hnd.2 h1

theorem keysOf_filter_subset {α β : Type} (l : List (α × β))
    (p : α × β → Bool) : keysOf (l.filter p) ⊆ keysOf l :=
  List.Sublist.subset (List.Sublist.map Prod.fst (List.filter_sublist l))

theorem dget_filter_of_nodup {α β : Type} [DecidableEq α]
    (l : List (α × β)) (q : β → Bool) (k : α) (h : (keysOf l).Nodup) :
    dget (l.filter (fun p => q p.2)) k
      = (dget l k).bind (fun v => if q v then some v else none) := by
  induction l with
  | nil => rfl
  | cons p l ih =>
    obtain ⟨a, b⟩ := p
    simp only [keysOf, List.map_cons, List.nodup_cons] at h
    rw [List.filter_cons, dget_cons]
    by_cases hk : a = k
    · subst hk
      by_cases hq : q b
      · rw [if_pos (by simpa using hq), dget_cons, if_pos rfl]
        simp [hq]
      · rw [if_neg (by simpa using hq)]
        have hnone : dget (l.filter (fun p => q p.2)) a = none := by
          apply dget_eq_none_of_not_mem_keys
          intro hmem
          exact h.1 (keysOf_filter_subset l _ hmem)
        simp [hnone, hq]
    · by_cases hq : q b
      · rw [if_pos (by simpa using hq), dget_cons, if_neg hk, if_neg hk]
        exact ih h.2
      · rw [if_neg (by simpa using hq), if_neg hk]
        exact ih h.2

theorem filter_idempotent {γ : Type} (l : List γ) (p : γ → Bool) :
    (l.filter p).filter p = l.filter p := by
  induction l with
  | nil => rfl
  | cons a l ih =>
    rw [List.filter_cons]
    by_cases h : p a
    · rw [if_pos h, List.filter_cons, if_pos h, ih]
    · rw [if_neg h, ih]

theorem tracked_dset (m : Moderators) (g : String) (b : Bucket)
    (g' : String) (uid : Nat) :
    tracked (dset m g b) g' uid ↔
      (g' = g ∧ uid ∈ keysOf b) ∨ (g' ≠ g ∧ tracked m g' uid) := by
  unfold tracked getMod
  by_cases h : g' = g
  · subst h
    rw [dget_dset_self]
    simp [dget_isSome_iff_mem_keys]
  · rw [dget_dset_ne m g g' b h]
    simp [h]

theorem mem_keys_getD_iff_tracked (m : Moderators) (g : String) (uid : Nat) :
    uid ∈ keysOf ((dget m g).getD []) ↔ tracked m g uid := by
  unfold tracked getMod
  cases h : dget m g with
  | none => simp [keysOf]
  | some b => simp [dget_isSome_iff_mem_keys]

theorem tracked_map_ddel (m : Moderators) (g0 : String) (u0 : Nat)
    (g : String) (uid : Nat) :
    tracked (m.map (fun gb => if gb.1 = g0 then (g0, ddel gb.2 u0) else gb))
        g uid
      ↔ tracked m g uid ∧ (g ≠ g0 ∨ uid ≠ u0) := by
  unfold tracked getMod
  rw [dget_map_ddel]
  by_cases hg : g = g0
  · subst hg
    rw [if_pos rfl]
    cases h : dget m g with
    | none => simp
    | some b =>
      by_cases hu : uid = u0
      · subst hu
        simp [dget_ddel_self]
      · simp [dget_ddel_ne b u0 uid hu, hu]
  · rw [if_neg hg]
    simp [hg]

theorem findExisting_eq_none_iff (m : Moderators) (uid : Nat) :
    findExisting m uid = none ↔ ∀ gb ∈ m, dget gb.2 uid = none := by
  unfold findExisting
  rw [List.findSome?_eq_none_iff]
  constructor
  · intro h gb hgb
    have h2 := h gb hgb
    cases hd : dget gb.2 uid with
    | none => rfl
    | some ex => rw [hd] at h2; simp at h2
  · intro h gb hgb
    rw [h gb hgb]
    rfl

theorem not_tracked_of_findExisting_none (m : Moderators) (uid : Nat)
    (h : findExisting m uid = none) (g : String) : ¬tracked m g uid := by
  unfold tracked getMod
  cases hd : dget m g with
  | none => simp
  | some b =>
    have hb := mem_of_dget_eq_some hd
    have h2 := (findExisting_eq_none_iff m uid).mp h (g, b) hb
    simp only at h2
    simp [h2]

theorem findExisting_some_spec (m : Moderators) (uid : Nat) (g0 : String)
    (ex : CheckedInModerator) (h : findExisting m uid = some (g0, ex)) :
    ∃ b, (g0, b) ∈ m ∧ dget b uid = some ex := by
  unfold findExisting at h
  obtain ⟨gb, hgb, hf⟩ := List.exists_of_findSome?_eq_some h
  cases hd : dget gb.2 uid with
  | none => rw [hd] at hf; simp at hf
  | some ex2 =>
    rw [hd] at hf
    simp only [Option.map] at hf
    injection hf with hf2
    injection hf2 with h1 h2
    refine ⟨gb.2, ?_, ?_⟩
    · rw [← h1]
      simpa using hgb
    · rw [hd, h2]

theorem tracked_of_findExisting_some (m : Moderators) (uid : Nat)
    (g0 : String) (ex : CheckedInModerator)
    (hnd : (keysOf m).Nodup) (h : findExisting m uid = some (g0, ex)) :
    tracked m g0 uid := by
  obtain ⟨b, hb, hd⟩ := findExisting_some_spec m uid g0 ex h
  unfold tracked getMod
  rw [dget_of_mem_nodup hnd hb]
  simp [hd]

theorem getMod_check_in (m : Moderators) (r : CheckedInModerator) :
    getMod (check_in_moderator m r) r.group r.user_id =
      some (storedRecord m r) := by
  unfold check_in_moderator getMod storedRecord
  cases hf : findExisting m r.user_id with
  | none => simp [dget_dset_self]
  | some p =>
    obtain ⟨g, ex⟩ := p
    simp [dget_dset_self]

/-- C1 counterexample: after a re-check-in at minute 30 the stored record
    keeps check-in instant 0 but gets shift end 150 = 30 + 120, so the
    shift-end instant no longer equals the record's check-in instant plus
    the most recent shift duration (0 + 120 = 120). -/
theorem c1_counterexample :
    getMod c1State1 "Mod" 1 = some c1Record
    ∧ c1Record.shift_end_time ≠ c1Record.check_in_time + 120 := by
  constructor
  · decide
  · decide

/-- C1 amended: after a check-in event at instant t with duration d the
    stored record's shift end is t + d (t being the instant of the most
    recent check-in event, not the preserved check-in instant), and
    check-out and the auto-expiry sweep never alter a surviving record,
    they only remove records. -/
theorem c1_amended_shift_end (m : Moderators) (uid : Nat)
    (dn un g : String) (t d : Int) :
    ((getMod (check_in_moderator m
        (CheckedInModerator.init uid dn un g (some t) t d)) g uid).map
          (fun cm => cm.shift_end_time) = some (t + d))
    ∧ (∀ now g' b p, (g', b) ∈ auto_check_out_moderators m now → p ∈ b →
        ∃ b0, (g', b0) ∈ m ∧ p ∈ b0)
    ∧ (∀ uid2 g2 g' b p, (g', b) ∈ check_out_moderator m uid2 g2 → p ∈ b →
        ∃ b0, (g', b0) ∈ m ∧ p ∈ b0) := by
  refine ⟨?_, ?_, ?_⟩
  · have h := getMod_check_in m (CheckedInModerator.init uid dn un g (some t) t d)
    rw [show (CheckedInModerator.init uid dn un g (some t) t d).group = g
        from rfl,
      show (CheckedInModerator.init uid dn un g (some t) t d).user_id = uid
        from rfl] at h
    rw [h]
    simp [storedRecord, CheckedInModerator.init]
  · intro now g' b p hb hp
    unfold auto_check_out_moderators at hb
    obtain ⟨gb, hgb, heq⟩ := List.mem_map.mp hb
    injection heq with h1 h2
    refine ⟨gb.2, ?_, ?_⟩
    · rw [← h1]
      simpa using hgb
    · rw [← h2] at hp
      exact (List.mem_filter.mp hp).1
  · intro uid2 g2 g' b p hb hp
    unfold check_out_moderator at hb
    by_cases hc : (dget m g2).isSome
    · rw [if_pos hc] at hb
      obtain ⟨gb, hgb, heq⟩ := List.mem_map.mp hb
      by_cases hg : gb.1 = g2
      · rw [if_pos hg] at heq
        injection heq with h1 h2
        refine ⟨gb.2, ?_, ?_⟩
        · rw [← h1, ← hg]
          simpa using hgb
        · rw [← h2] at hp
          exact (List.mem_filter.mp hp).1
      · rw [if_neg hg] at heq
        subst heq
        exact ⟨b, hgb, hp⟩
    · rw [if_neg hc] at hb
      obtain ⟨gb, hgb, heq⟩ := List.mem_map.mp hb
      rcases List.mem_append.mp hgb with hgb1 | hgb1
      · by_cases hg : gb.1 = g2
        · rw [if_pos hg] at heq
          injection heq with h1 h2
          refine ⟨gb.2, ?_, ?_⟩
          · rw [← h1, ← hg]
            simpa using hgb1
          · rw [← h2] at hp
            exact (List.mem_filter.mp hp).1
        · rw [if_neg hg] at heq
          subst heq
          exact ⟨b, hgb1, hp⟩
      · have hgb2 : gb = (g2, ([] : Bucket)) := by simpa using hgb1
        subst hgb2
        rw [if_pos rfl] at heq
        injection heq with h1 h2
        rw [← h2] at hp
        simp [ddel] at hp

/-- C1 amended witness: the concrete re-check-in of the counterexample
    instantiates the theorem with shift end 30 + 120. -/
theorem c1_amended_shift_end_witness :
    (getMod (check_in_moderator c1State0
        (CheckedInModerator.init 1 "jane" "jane" "Mod" (some 30) 30 120))
        "Mod" 1).map (fun cm => cm.shift_end_time) = some (30 + 120) :=
  (c1_amended_shift_end c1State0 1 "jane" "jane" "Mod" 30 120).1

/-- C2: a repeated check-in stores a record that keeps the already
    tracked record's check-in instant, and when the group changed the old
    group no longer holds a record for the user. -/
theorem c2_recheckin_preserves_instant (m : Moderators) (uid : Nat)
    (g0 : String) (ex : CheckedInModerator) (r : CheckedInModerator)
    (hf : findExisting m uid = some (g0, ex)) (hr : r.user_id = uid) :
    ((getMod (check_in_moderator m r) r.group uid).map
        (fun cm => cm.check_in_time) = some ex.check_in_time)
    ∧ (g0 ≠ r.group → getMod (check_in_moderator m r) g0 uid = none) := by
  subst hr
  constructor
  · rw [getMod_check_in m r]
    simp [storedRecord, hf]
  · intro hne
    unfold check_in_moderator
    rw [hf]
    simp only
    rw [if_pos hne]
    unfold getMod
    rw [dget_dset_ne _ _ _ _ hne, dget_map_ddel, if_pos rfl]
    cases hd : dget m g0 with
    | none => rfl
    | some b => simp [dget_ddel_self]

/-- C2 witness: checking the already-tracked user 1 in again under
    Lead Mod keeps check-in instant 0 and clears the Mod record. -/
theorem c2_recheckin_witness :
    ((getMod (check_in_moderator c1State0 c2NewRec) "Lead Mod" 1).map
        (fun cm => cm.check_in_time) = some 0)
    ∧ getMod (check_in_moderator c1State0 c2NewRec) "Mod" 1 = none :=
  ⟨(c2_recheckin_preserves_instant c1State0 1 "Mod" c2OldRec c2NewRec
      (by decide) (by decide)).1,
   (c2_recheckin_preserves_instant c1State0 1 "Mod" c2OldRec c2NewRec
      (by decide) (by decide)).2 (by decide)⟩

theorem dget_filter_alive (b : Bucket) (now : Int) (uid : Nat)
    (h : (keysOf b).Nodup) :
    dget (b.filter (fun p => !(p.2.is_shift_over now))) uid
      = (dget b uid).bind
          (fun v => if !(v.is_shift_over now) then some v else none) :=
  dget_filter_of_nodup b (fun v => !(v.is_shift_over now)) uid h

theorem auto_check_out_idem (m : Moderators) (now : Int) :
    auto_check_out_moderators (auto_check_out_moderators m now) now
      = auto_check_out_moderators m now := by
  induction m with
  | nil => rfl
  | cons gb m ih =>
    unfold auto_check_out_moderators at ih ⊢
    simp only [List.map_cons, filter_idempotent]
    rw [ih]

/-- C9: at a fixed instant the sweep keeps a tracked record exactly when
    the instant is still before the recorded shift end (removal exactly
    when the instant has reached it), and running the sweep twice at the
    same instant equals running it once. -/
theorem c9_auto_expiry (m : Moderators) (now : Int)
    (hwf : ∀ gb ∈ m, (keysOf gb.2).Nodup) :
    (∀ g uid cm, getMod (auto_check_out_moderators m now) g uid = some cm ↔
      (getMod m g uid = some cm ∧ now < cm.shift_end_time))
    ∧ auto_check_out_moderators (auto_check_out_moderators m now) now
        = auto_check_out_moderators m now := by
  constructor
  · intro g uid cm
    unfold getMod
    rw [dget_auto]
    cases hd : dget m g with
    | none => simp
    | some b =>
      have hb := hwf (g, b) (mem_of_dget_eq_some hd)
      simp only [Option.map_some', Option.some_bind]
      rw [dget_filter_alive b now uid hb]
      cases hdu : dget b uid with
      | none => simp
      | some v =>
        rw [Option.some_bind]
        unfold CheckedInModerator.is_shift_over
        by_cases hge : now ≥ v.shift_end_time
        · rw [show (!decide (now ≥ v.shift_end_time)) = false by simp [hge],
            if_neg (by simp)]
          constructor
          · intro h
            exact absurd h (by simp)
          · rintro ⟨h1, h2⟩
            injection h1 with h1
            subst h1
            omega
        · rw [show (!decide (now ≥ v.shift_end_time)) = true by simp [hge],
            if_pos rfl]
          constructor
          · intro h
            injection h with h
            subst h
            exact ⟨rfl, by omega⟩
          · rintro ⟨h1, _⟩
            exact h1
  · exact auto_check_out_idem m now

/-- C9 witness: the state of the concrete first check-in at instant 200
    (past the recorded shift end 120) instantiates the claim. -/
theorem c9_auto_expiry_witness :
    (getMod (auto_check_out_moderators c1State0 200) "Mod" 1 = some c2OldRec
      ↔ (getMod c1State0 "Mod" 1 = some c2OldRec
          ∧ 200 < c2OldRec.shift_end_time))
    ∧ auto_check_out_moderators (auto_check_out_moderators c1State0 200) 200
        = auto_check_out_moderators c1State0 200 :=
  ⟨(c9_auto_expiry c1State0 200 (by decide)).1 "Mod" 1 c2OldRec,
   (c9_auto_expiry c1State0 200 (by decide)).2⟩

theorem nodup_keys_getD (m : Moderators) (g : String)
    (hwf : ∀ gb ∈ m, (keysOf gb.2).Nodup) :
    (keysOf ((dget m g).getD [])).Nodup := by
  cases hd : dget m g with
  | none => simp [keysOf]
  | some b => exact hwf (g, b) (mem_of_dget_eq_some hd)

theorem userUnique_iff_tracked (m : Moderators)
    (hnd : (keysOf m).Nodup) :
    UserUnique m ↔
      ∀ uid g1 g2, tracked m g1 uid → tracked m g2 uid → g1 = g2 := by
  constructor
  · intro hu uid g1 g2 h1 h2
    unfold tracked getMod at h1 h2
    cases hd1 : dget m g1 with
    | none => rw [hd1] at h1; simp at h1
    | some b1 =>
      cases hd2 : dget m g2 with
      | none => rw [hd2] at h2; simp at h2
      | some b2 =>
        rw [hd1] at h1
        rw [hd2] at h2
        simp only [Option.some_bind] at h1 h2
        have hm1 := mem_of_dget_eq_some hd1
        have hm2 := mem_of_dget_eq_some hd2
        have hk1 : uid ∈ keysOf b1 := (dget_isSome_iff_mem_keys b1 uid).mp h1
        have hk2 : uid ∈ keysOf b2 := (dget_isSome_iff_mem_keys b2 uid).mp h2
        exact hu (g1, b1) hm1 (g2, b2) hm2 uid hk1 hk2
  · intro h gb1 h1 gb2 h2 uid hk1 hk2
    have hd1 := dget_of_mem_nodup hnd (show (gb1.1, gb1.2) ∈ m by simpa using h1)
    have hd2 := dget_of_mem_nodup hnd (show (gb2.1, gb2.2) ∈ m by simpa using h2)
    apply h uid
    · unfold tracked getMod
      rw [hd1]
      simpa [dget_isSome_iff_mem_keys] using hk1
    · unfold tracked getMod
      rw [hd2]
      simpa [dget_isSome_iff_mem_keys] using hk2

theorem check_in_none_eq (m : Moderators) (r : CheckedInModerator)
    (hf : findExisting m r.user_id = none) :
    check_in_moderator m r =
      dset m r.group (dset ((dget m r.group).getD []) r.user_id r) := by
  unfold check_in_moderator
  rw [hf]

theorem check_in_some_eq (m : Moderators) (r : CheckedInModerator)
    (g0 : String) (ex : CheckedInModerator)
    (hf : findExisting m r.user_id = some (g0, ex)) :
    check_in_moderator m r =
      dset
        (if g0 ≠ r.group
         then m.map
           (fun gb => if gb.1 = g0 then (g0, ddel gb.2 r.user_id) else gb)
         else m)
        r.group
        (dset
          ((dget
            (if g0 ≠ r.group
             then m.map
               (fun gb => if gb.1 = g0 then (g0, ddel gb.2 r.user_id) else gb)
             else m)
            r.group).getD [])
          r.user_id
          { r with check_in_time := ex.check_in_time }) := by
  unfold check_in_moderator
  rw [hf]

theorem tracked_check_in (m : Moderators) (r : CheckedInModerator)
    (hnd : (keysOf m).Nodup)
    (hu : ∀ uid g1 g2, tracked m g1 uid → tracked m g2 uid → g1 = g2)
    (g : String) (uid : Nat) :
    tracked (check_in_moderator m r) g uid ↔
      ((uid = r.user_id ∧ g = r.group)
        ∨ (uid ≠ r.user_id ∧ tracked m g uid)) := by
  cases hf : findExisting m r.user_id with
  | none =>
    rw [check_in_none_eq m r hf, tracked_dset]
    constructor
    · rintro (⟨hg, hk⟩ | ⟨hg, ht⟩)
      · rw [mem_keysOf_dset] at hk
        rcases hk with hk | hk
        · have ht : tracked m r.group uid :=
            (mem_keys_getD_iff_tracked m r.group uid).mp hk
          have hne : uid ≠ r.user_id := by
            intro h
            subst h
            exact not_tracked_of_findExisting_none m r.user_id hf r.group ht
          exact Or.inr ⟨hne, hg ▸ ht⟩
        · exact Or.inl ⟨hk, hg⟩
      · have hne : uid ≠ r.user_id := by
          intro h
          subst h
          exact not_tracked_of_findExisting_none m r.user_id hf g ht
        exact Or.inr ⟨hne, ht⟩
    · rintro (⟨hk, hg⟩ | ⟨hne, ht⟩)
      · refine Or.inl ⟨hg, ?_⟩
        rw [mem_keysOf_dset]
        exact Or.inr hk
      · by_cases hg : g = r.group
        · refine Or.inl ⟨hg, ?_⟩
          rw [mem_keysOf_dset]
          exact Or.inl ((mem_keys_getD_iff_tracked m r.group uid).mpr (hg ▸ ht))
        · exact Or.inr ⟨hg, ht⟩
  | some p =>
    obtain ⟨g0, ex⟩ := p
    have htg0 : tracked m g0 r.user_id :=
      tracked_of_findExisting_some m r.user_id g0 ex hnd hf
    rw [check_in_some_eq m r g0 ex hf]
    by_cases hgc : g0 = r.group
    · rw [if_neg (by simpa using hgc), tracked_dset]
      constructor
      · rintro (⟨hg, hk⟩ | ⟨hg, ht⟩)
        · rw [mem_keysOf_dset] at hk
          rcases hk with hk | hk
          · by_cases hq : uid = r.user_id
            · exact Or.inl ⟨hq, hg⟩
            · exact Or.inr ⟨hq,
                hg ▸ (mem_keys_getD_iff_tracked m r.group uid).mp hk⟩
          · exact Or.inl ⟨hk, hg⟩
        · by_cases hq : uid = r.user_id
          · subst hq
            have hgg := hu r.user_id g g0 ht htg0
            exact absurd (hgg.trans hgc) hg
          · exact Or.inr ⟨hq, ht⟩
      · rintro (⟨hk, hg⟩ | ⟨hne, ht⟩)
        · refine Or.inl ⟨hg, ?_⟩
          rw [mem_keysOf_dset]
          exact Or.inr hk
        · by_cases hg : g = r.group
          · refine Or.inl ⟨hg, ?_⟩
            rw [mem_keysOf_dset]
            exact Or.inl ((mem_keys_getD_iff_tracked m r.group uid).mpr (hg ▸ ht))
          · exact Or.inr ⟨hg, ht⟩
    · rw [if_pos (by simpa using hgc)]
      have hb1 : dget (m.map
          (fun gb => if gb.1 = g0 then (g0, ddel gb.2 r.user_id) else gb))
          r.group = dget m r.group := by
        rw [dget_map_ddel, if_neg (fun h => hgc h.symm)]
      rw [tracked_dset, hb1]
      constructor
      · rintro (⟨hg, hk⟩ | ⟨hg, ht⟩)
        · rw [mem_keysOf_dset] at hk
          rcases hk with hk | hk
          · have ht : tracked m r.group uid :=
              (mem_keys_getD_iff_tracked m r.group uid).mp hk
            have hne : uid ≠ r.user_id := by
              intro h
              subst h
              exact hgc (hu r.user_id g0 r.group htg0 ht)
            exact Or.inr ⟨hne, hg ▸ ht⟩
          · exact Or.inl ⟨hk, hg⟩
        · rw [tracked_map_ddel] at ht
          obtain ⟨ht, hd⟩ := ht
          have hne : uid ≠ r.user_id := by
            intro h
            subst h
            have hgg := hu r.user_id g g0 ht htg0
            rcases hd with hd | hd
            · exact hd hgg
            · exact hd rfl
          exact Or.inr ⟨hne, ht⟩
      · rintro (⟨hk, hg⟩ | ⟨hne, ht⟩)
        · refine Or.inl ⟨hg, ?_⟩
          rw [mem_keysOf_dset]
          exact Or.inr hk
        · by_cases hg : g = r.group
          · refine Or.inl ⟨hg, ?_⟩
            rw [mem_keysOf_dset]
            exact Or.inl ((mem_keys_getD_iff_tracked m r.group uid).mpr (hg ▸ ht))
          · refine Or.inr ⟨hg, ?_⟩
            rw [tracked_map_ddel]
            exact ⟨ht, Or.inr hne⟩

theorem nodup_keysOf_ddel {α β : Type} [DecidableEq α] (l : List (α × β))
    (k : α) (h : (keysOf l).Nodup) : (keysOf (ddel l k)).Nodup :=
  List.Nodup.sublist (List.Sublist.map Prod.fst (List.filter_sublist l)) h

theorem nodup_keysOf_filter {α β : Type} (l : List (α × β))
    (p : α × β → Bool) (h : (keysOf l).Nodup) :
    (keysOf (l.filter p)).Nodup :=
  List.Nodup.sublist (List.Sublist.map Prod.fst (List.filter_sublist l)) h

theorem wf_auto (m : Moderators) (now : Int) (hnd : (keysOf m).Nodup)
    (hb : ∀ gb ∈ m, (keysOf gb.2).Nodup) :
    (keysOf (auto_check_out_moderators m now)).Nodup
    ∧ ∀ gb ∈ auto_check_out_moderators m now, (keysOf gb.2).Nodup := by
  constructor
  · rw [keysOf_auto]
    exact hnd
  · intro gb hgb
    unfold auto_check_out_moderators at hgb
    obtain ⟨gb0, hgb0, heq⟩ := List.mem_map.mp hgb
    subst heq
    exact nodup_keysOf_filter gb0.2 _ (hb gb0 hgb0)

theorem map_ddel_keys_buckets (m : Moderators) (g0 : String) (u0 : Nat)
    (hb : ∀ gb ∈ m, (keysOf gb.2).Nodup) :
    ∀ gb ∈ m.map (fun gb => if gb.1 = g0 then (g0, ddel gb.2 u0) else gb),
      (keysOf gb.2).Nodup := by
  intro gb hgb
  obtain ⟨gb0, hgb0, heq⟩ := List.mem_map.mp hgb
  subst heq
  by_cases hg : gb0.1 = g0
  · rw [if_pos hg]
    exact nodup_keysOf_ddel gb0.2 u0 (hb gb0 hgb0)
  · rw [if_neg hg]
    exact hb gb0 hgb0

theorem wf_check_out (m : Moderators) (uid : Nat) (g2 : String)
    (hnd : (keysOf m).Nodup) (hb : ∀ gb ∈ m, (keysOf gb.2).Nodup) :
    (keysOf (check_out_moderator m uid g2)).Nodup
    ∧ ∀ gb ∈ check_out_moderator m uid g2, (keysOf gb.2).Nodup := by
  unfold check_out_moderator
  by_cases hc : (dget m g2).isSome
  · rw [if_pos hc]
    refine ⟨?_, map_ddel_keys_buckets m g2 uid hb⟩
    rw [keysOf_map_ddel]
    exact hnd
  · rw [if_neg hc]
    have hg2 : g2 ∉ keysOf m := by
      intro hmem
      exact hc ((dget_isSome_iff_mem_keys m g2).mpr hmem)
    have happ : keysOf (m ++ [(g2, ([] : Bucket))]) = keysOf m ++ [g2] := by
      unfold keysOf
      rw [List.map_append]
      rfl
    constructor
    · rw [keysOf_map_ddel, happ, List.nodup_append]
      refine ⟨hnd, by simp, ?_⟩
      intro a ha ha2
      simp only [List.mem_singleton] at ha2
      subst ha2
      exact hg2 ha
    · apply map_ddel_keys_buckets
      intro gb hgb
      rcases List.mem_append.mp hgb with h | h
      · exact hb gb h
      · have hgb2 : gb = (g2, ([] : Bucket)) := by simpa using h
        subst hgb2
        simp [keysOf]

theorem wf_check_in (m : Moderators) (r : CheckedInModerator)
    (hnd : (keysOf m).Nodup) (hb : ∀ gb ∈ m, (keysOf gb.2).Nodup) :
    (keysOf (check_in_moderator m r)).Nodup
    ∧ ∀ gb ∈ check_in_moderator m r, (keysOf gb.2).Nodup := by
  cases hf : findExisting m r.user_id with
  | none =>
    rw [check_in_none_eq m r hf]
    constructor
    · exact nodup_keysOf_dset m r.group _ hnd
    · intro gb hgb
      rcases mem_dset_elem hgb with h | h
      · exact hb gb h
      · subst h
        exact nodup_keysOf_dset _ r.user_id r (nodup_keys_getD m r.group hb)
  | some p =>
    obtain ⟨g0, ex⟩ := p
    rw [check_in_some_eq m r g0 ex hf]
    by_cases hgc : g0 ≠ r.group
    · rw [if_pos hgc]
      have hnd1 : (keysOf (m.map
          (fun gb => if gb.1 = g0 then (g0, ddel gb.2 r.user_id) else gb))).Nodup := by
        rw [keysOf_map_ddel]
        exact hnd
      have hb1 := map_ddel_keys_buckets m g0 r.user_id hb
      constructor
      · exact nodup_keysOf_dset _ r.group _ hnd1
      · intro gb hgb
        rcases mem_dset_elem hgb with h | h
        · exact hb1 gb h
        · subst h
          exact nodup_keysOf_dset _ r.user_id _ (nodup_keys_getD _ r.group hb1)
    · rw [if_neg hgc]
      constructor
      · exact nodup_keysOf_dset m r.group _ hnd
      · intro gb hgb
        rcases mem_dset_elem hgb with h | h
        · exact hb gb h
        · subst h
          exact nodup_keysOf_dset _ r.user_id _ (nodup_keys_getD m r.group hb)

theorem tracked_auto_mono (m : Moderators) (now : Int) (g : String)
    (u : Nat) (h : tracked (auto_check_out_moderators m now) g u) :
    tracked m g u := by
  unfold tracked getMod at h ⊢
  rw [dget_auto] at h
  cases hd : dget m g with
  | none => rw [hd] at h; simp at h
  | some b =>
    rw [hd] at h
    simp only [Option.map_some', Option.some_bind] at h
    have h3 := (dget_isSome_iff_mem_keys _ u).mp h
    have h4 := keysOf_filter_subset b _ h3
    show ((some b).bind fun b => dget b u).isSome = true
    simp only [Option.some_bind]
    exact (dget_isSome_iff_mem_keys b u).mpr h4

theorem tracked_check_out_mono (m : Moderators) (uid0 : Nat) (g0 : String)
    (g : String) (u : Nat)
    (h : tracked (check_out_moderator m uid0 g0) g u) : tracked m g u := by
  unfold check_out_moderator at h
  by_cases hc : (dget m g0).isSome
  · rw [if_pos hc] at h
    exact ((tracked_map_ddel m g0 uid0 g u).mp h).1
  · rw [if_neg hc] at h
    have h2 := ((tracked_map_ddel (m ++ [(g0, [])]) g0 uid0 g u).mp h).1
    unfold tracked getMod at h2 ⊢
    rw [dget_append] at h2
    cases hd : dget m g with
    | some b =>
      rw [hd] at h2
      simpa using h2
    | none =>
      rw [hd] at h2
      by_cases hg : g0 = g
      · rw [show dget [((g0 : String), ([] : Bucket))] g = some []
            by rw [dget_cons, if_pos hg]] at h2
        simp [dget_nil] at h2
      · rw [show dget [((g0 : String), ([] : Bucket))] g = none
            by rw [dget_cons, if_neg hg, dget_nil]] at h2
        simp at h2

/-- C10: from a state whose moderators map is dictionary-shaped (unique
    group keys, unique user keys per bucket) and tracks each user under
    at most one group, every tracker operation (check-in of any record,
    check-out, auto-expiry sweep) yields a state with the same two
    properties, so each user id appears in at most one group in every
    reachable state. -/
theorem c10_at_most_one_group (m : Moderators)
    (hwf : WFMods m) (hu : UserUnique m) :
    (∀ r, WFMods (check_in_moderator m r)
      ∧ UserUnique (check_in_moderator m r))
    ∧ (∀ uid g, WFMods (check_out_moderator m uid g)
      ∧ UserUnique (check_out_moderator m uid g))
    ∧ (∀ now, WFMods (auto_check_out_moderators m now)
      ∧ UserUnique (auto_check_out_moderators m now)) := by
  obtain ⟨hnd, hb⟩ := hwf
  have hut := (userUnique_iff_tracked m hnd).mp hu
  refine ⟨?_, ?_, ?_⟩
  · intro r
    have hwf2 := wf_check_in m r hnd hb
    refine ⟨hwf2, ?_⟩
    rw [userUnique_iff_tracked _ hwf2.1]
    intro uid g1 g2 h1 h2
    rw [tracked_check_in m r hnd hut] at h1 h2
    rcases h1 with ⟨he1, hg1⟩ | ⟨hne1, ht1⟩
    · rcases h2 with ⟨he2, hg2⟩ | ⟨hne2, ht2⟩
      · rw [hg1, hg2]
      · exact absurd he1 hne2
    · rcases h2 with ⟨he2, hg2⟩ | ⟨hne2, ht2⟩
      · exact absurd he2 hne1
      · exact hut uid g1 g2 ht1 ht2
  · intro uid g
    have hwf2 := wf_check_out m uid g hnd hb
    refine ⟨hwf2, ?_⟩
    rw [userUnique_iff_tracked _ hwf2.1]
    intro u g1 g2 h1 h2
    exact hut u g1 g2 (tracked_check_out_mono m uid g g1 u h1)
      (tracked_check_out_mono m uid g g2 u h2)
  · intro now
    have hwf2 := wf_auto m now hnd hb
    refine ⟨hwf2, ?_⟩
    rw [userUnique_iff_tracked _ hwf2.1]
    intro u g1 g2 h1 h2
    exact hut u g1 g2 (tracked_auto_mono m now g1 u h1)
      (tracked_auto_mono m now g2 u h2)

/-- C10 witness: the concrete one-user state is well formed and stays so
    through a group-changing check-in. -/
theorem c10_at_most_one_group_witness :
    WFMods (check_in_moderator c1State0 c2NewRec)
    ∧ UserUnique (check_in_moderator c1State0 c2NewRec) :=
  (c10_at_most_one_group c1State0
    (by unfold WFMods keysOf; constructor <;> decide)
    (by unfold UserUnique keysOf; decide)).1 c2NewRec

/-- C7 counterexample: at the exact end instant 660 of the entry's
    window the code still reports the shift [540, 660], while the
    claim's half-open [start, end) window yields no current shift. -/
theorem c7_counterexample :
    get_current_shift_times [morningEntry] 660 = (some 540, some 660)
    ∧ get_current_shift_times_halfOpen [morningEntry] 660 = (none, none) := by
  constructor <;> decide

/-- C7 amended: with the window taken as the closed range
    [start, end] (both endpoints included, as the code compares), the
    resolution returns (none, none) exactly when no entry is active, and
    otherwise the pair (earliest start, latest end) over the active
    entries. -/
theorem c7_amended_current_shift (entries : List ScheduleEntry)
    (now : Int) :
    ((∀ e ∈ entries,
        ¬(e.shift_start_datetime ≤ now ∧ now ≤ e.shift_end_datetime)) →
      get_current_shift_times entries now = (none, none))
    ∧ (∀ e0 ∈ entries,
      e0.shift_start_datetime ≤ now → now ≤ e0.shift_end_datetime →
      ∃ s t, get_current_shift_times entries now = (some s, some t)
        ∧ (∃ e ∈ entries,
            (e.shift_start_datetime ≤ now ∧ now ≤ e.shift_end_datetime)
            ∧ e.shift_start_datetime = s)
        ∧ (∃ e ∈ entries,
            (e.shift_start_datetime ≤ now ∧ now ≤ e.shift_end_datetime)
            ∧ e.shift_end_datetime = t)
        ∧ (∀ e ∈ entries,
            e.shift_start_datetime ≤ now → now ≤ e.shift_end_datetime →
            s ≤ e.shift_start_datetime ∧ e.shift_end_datetime ≤ t)) := by
  constructor
  · intro h
    have hnil : activeEntries entries now = [] := by
      unfold activeEntries
      rw [List.filter_eq_nil_iff]
      intro e he
      simpa using h e he
    unfold get_current_shift_times
    rw [hnil]
    rfl
  · intro e0 he0 hs0 ht0
    have hmem : e0 ∈ activeEntries entries now := by
      unfold activeEntries
      exact List.mem_filter.mpr ⟨he0, by simp [hs0, ht0]⟩
    cases hmin : ((activeEntries entries now).map
        (fun e => e.shift_start_datetime)).min? with
    | none =>
      rw [List.min?_eq_none_iff, List.map_eq_nil_iff] at hmin
      rw [hmin] at hmem
      exact absurd hmem (List.not_mem_nil _)
    | some s =>
      cases hmax : ((activeEntries entries now).map
          (fun e => e.shift_end_datetime)).max? with
      | none =>
        rw [List.max?_eq_none_iff, List.map_eq_nil_iff] at hmax
        rw [hmax] at hmem
        exact absurd hmem (List.not_mem_nil _)
      | some t =>
        have hm := (List.min?_eq_some_iff (fun a => le_refl a)
          (fun a b => min_choice a b) (fun a b c => le_min_iff)).mp hmin
        have hM := (List.max?_eq_some_iff (fun a => le_refl a)
          (fun a b => max_choice a b) (fun a b c => max_le_iff)).mp hmax
        refine ⟨s, t, ?_, ?_, ?_, ?_⟩
        · unfold get_current_shift_times
          rw [hmin, hmax]
        · obtain ⟨hs_mem, _⟩ := hm
          rw [List.mem_map] at hs_mem
          obtain ⟨e, he, heq⟩ := hs_mem
          have hef := List.mem_filter.mp he
          exact ⟨e, hef.1, by simpa using hef.2, heq⟩
        · obtain ⟨ht_mem, _⟩ := hM
          rw [List.mem_map] at ht_mem
          obtain ⟨e, he, heq⟩ := ht_mem
          have hef := List.mem_filter.mp he
          exact ⟨e, hef.1, by simpa using hef.2, heq⟩
        · intro e he hs ht
          have hea : e ∈ activeEntries entries now := by
            unfold activeEntries
            exact List.mem_filter.mpr ⟨he, by simp [hs, ht]⟩
          exact ⟨hm.2 _ (List.mem_map_of_mem _ hea),
            hM.2 _ (List.mem_map_of_mem _ hea)⟩

/-- C7 amended witness: no entry active at minute 1000 gives no current
    shift, and the spec's overlap example at 10:30 (minute 630) resolves
    to [9:00, 12:00] (minutes 540 to 720). -/
theorem c7_amended_current_shift_witness :
    get_current_shift_times [morningEntry] 1000 = (none, none)
    ∧ get_current_shift_times [morningEntry, middayEntry] 630
        = (some 540, some 720) :=
  ⟨(c7_amended_current_shift [morningEntry] 1000).1 (by decide), by decide⟩

/-- C4 counterexample: at minute 660, the exact end of Jane's matching
    9:00-to-11:00 shift, the code's closed comparison still resolves the
    pair (Mod, 120 minutes), while the claim's half-open [start, end)
    window yields the Floating default with a one-hour duration. -/
theorem c4_counterexample :
    mod_checkin_resolve (fun _ _ => 0) [janeShift] janeUser 660
      = ("Mod", 120)
    ∧ mod_checkin_resolve_halfOpen (fun _ _ => 0) [janeShift] janeUser 660
      = ("Floating", 60) := by
  constructor <;> decide

/-- C4 amended: the check-in group and duration come from the first
    entry in index order that both matches the user and whose CLOSED
    window [start, end] (both endpoints included, as the code compares)
    contains the current instant; with none, Floating and one hour; the
    stored record carries the resolved group and a shift end of now plus
    the resolved duration. -/
theorem c4_checkin_group_duration (ratio : String → String → Nat)
    (entries : List ScheduleEntry) (u : DiscordUser) (now : Int)
    (m : Moderators) :
    ((∀ e ∈ entries, ¬(match_user ratio e u = true
        ∧ e.shift_start_datetime ≤ now ∧ now ≤ e.shift_end_datetime)) →
      mod_checkin_resolve ratio entries u now = ("Floating", 60))
    ∧ (∀ l1 e l2, entries = l1 ++ e :: l2 →
      (∀ e2 ∈ l1, ¬(match_user ratio e2 u = true
        ∧ e2.shift_start_datetime ≤ now ∧ now ≤ e2.shift_end_datetime)) →
      match_user ratio e u = true →
      e.shift_start_datetime ≤ now → now ≤ e.shift_end_datetime →
      mod_checkin_resolve ratio entries u now
        = (e.role, e.shift_end_datetime - e.shift_start_datetime))
    ∧ (∃ cm, getMod (mod_checkin ratio m entries u now)
        (mod_checkin_resolve ratio entries u now).1 u.id = some cm
      ∧ cm.group = (mod_checkin_resolve ratio entries u now).1
      ∧ cm.shift_end_time
          = now + (mod_checkin_resolve ratio entries u now).2) := by
  refine ⟨?_, ?_, ?_⟩
  · intro h
    have hfind : entries.find? (fun e => match_user ratio e u
        && decide (e.shift_start_datetime ≤ now
            ∧ now ≤ e.shift_end_datetime)) = none := by
      rw [List.find?_eq_none]
      intro e he
      intro hcontra
      rw [Bool.and_eq_true, decide_eq_true_eq] at hcontra
      exact h e he ⟨hcontra.1, hcontra.2⟩
    unfold mod_checkin_resolve
    rw [hfind]
  · intro l1 e l2 hsplit h1 hm hs ht
    have hfind : entries.find? (fun e => match_user ratio e u
        && decide (e.shift_start_datetime ≤ now
            ∧ now ≤ e.shift_end_datetime)) = some e := by
      rw [hsplit, List.find?_append]
      have hnone : l1.find? (fun e => match_user ratio e u
          && decide (e.shift_start_datetime ≤ now
              ∧ now ≤ e.shift_end_datetime)) = none := by
        rw [List.find?_eq_none]
        intro e2 he2 hcontra
        rw [Bool.and_eq_true, decide_eq_true_eq] at hcontra
        exact h1 e2 he2 ⟨hcontra.1, hcontra.2⟩
      rw [hnone, Option.none_or, List.find?_cons,
        show (match_user ratio e u && decide (e.shift_start_datetime ≤ now
          ∧ now ≤ e.shift_end_datetime)) = true
          by rw [Bool.and_eq_true, decide_eq_true_eq]; exact ⟨hm, hs, ht⟩]
    unfold mod_checkin_resolve
    rw [hfind]
  · refine ⟨storedRecord m
      (CheckedInModerator.init u.id u.display_name u.tag
        (mod_checkin_resolve ratio entries u now).1 (some now) now
        (mod_checkin_resolve ratio entries u now).2), ?_, rfl, ?_⟩
    · exact getMod_check_in m _
    · rfl

/-- C4 witness: at minute 600 the first entry matching Jane is skipped
    while its window (0 to 60) does not contain the instant, and her
    shift entry decides the group Mod with 120-minute duration. -/
theorem c4_checkin_group_duration_witness :
    mod_checkin_resolve (fun _ _ => 0) [janeEntry, janeShift] janeUser 600
      = ("Mod", 120) :=
  (c4_checkin_group_duration (fun _ _ => 0) [janeEntry, janeShift]
      janeUser 600 []).2.1 [janeEntry] janeShift [] rfl (by decide)
    (by decide) (by decide) (by decide)

